import Mathlib

/-!
Shallow embedding of the fixed-capacity big-number library (`src/lib.rs`):
a fixed-length little-endian limb array of `NUMBER_SIZE` limbs over base
`BASE`, with comparison, addition, saturating subtraction, truncating
schoolbook multiplication, and repeated-subtraction long division.

Machine integers are modelled as `Nat` (unsigned) and `Int` (signed):
the 32-bit accumulator type (`UpperBase = u32`) is modelled with an
explicit `% U32MOD` where the code computes in `u32`; the signed 64-bit
accumulator of subtraction (`SignedUpperBase = i64`) is modelled as `Int`
(its range is never exceeded by `u32`-valued limbs). The division loop of
the source has no termination guarantee (it diverges on a zero divisor),
so it is embedded with an explicit fuel parameter and returns `none`
exactly when the fuel is exhausted while the loop guard still holds.
-/

namespace BigNum

/-- `pub const NUMBER_SIZE: usize = 10 * u8::MAX as usize` = 2550. -/
def NUMBER_SIZE : Nat := 10 * 255

/-- `pub const BASE: u32 = u16::MAX as u32` = 65535 (note: not 2^16). -/
def BASE : Nat := 65535

/-- The modulus of the 32-bit limb / accumulator type (`u32`). -/
def U32MOD : Nat := 4294967296

/-- `pub struct BigNumber { pub prec: [BaseType; NUMBER_SIZE] }`:
the limb array, index 0 least significant, as a length-2550 list. -/
structure BigNumber where
  prec : List Nat
  hlen : prec.length = NUMBER_SIZE

theorem BigNumber.ext' : ∀ {a b : BigNumber}, a.prec = b.prec → a = b
  | ⟨_, _⟩, ⟨_, _⟩, rfl => rfl

/-- `BigNumber::empty()`: all limbs zero (also `new`/`default`). -/
def BigNumber.empty : BigNumber :=
  ⟨List.replicate NUMBER_SIZE 0, List.length_replicate ..⟩

/-- `BigNumber::from(num)`: limb 0 = `num`, the rest zero (unreduced). -/
def BigNumber.from' (num : Nat) : BigNumber :=
  ⟨num :: List.replicate (NUMBER_SIZE - 1) 0, by
    rw [List.length_cons, List.length_replicate]; simp only [NUMBER_SIZE]⟩

/-- `BigNumber::from_upper(num)`: limb 0 = `num.rem_euclid(BASE)`,
limb 1 = `num / BASE`, the rest zero. -/
def BigNumber.from_upper (num : Nat) : BigNumber :=
  ⟨num % BASE :: num / BASE :: List.replicate (NUMBER_SIZE - 2) 0, by
    rw [List.length_cons, List.length_cons, List.length_replicate]
    simp only [NUMBER_SIZE]⟩

/-- `BigNumber::is_zero()`: every limb is zero. -/
def BigNumber.is_zero (x : BigNumber) : Bool :=
  x.prec.all (fun d => d == 0)

/-- `BigNumber::rotated_right(shift)`: cyclic rotation of the limb array,
`new[i] = old[(i + shift % NUMBER_SIZE) % NUMBER_SIZE]`, which is exactly
`List.rotate` by `shift % NUMBER_SIZE`. -/
def BigNumber.rotated_right (x : BigNumber) (shift : Nat) : BigNumber :=
  ⟨x.prec.rotate (shift % NUMBER_SIZE), by rw [List.length_rotate, x.hlen]⟩

/-- The comparison loop of `Ord::cmp`: the zipped limb pairs are walked in
reverse (most significant first) and the first unequal pair decides. The
arguments here are the reversed limb lists. -/
def cmpBE : List Nat → List Nat → Ordering
  | x :: xs, y :: ys =>
    match compare x y with
    | Ordering.eq => cmpBE xs ys
    | ord => ord
  | _, _ => Ordering.eq

/-- `Ord::cmp` on `BigNumber`. -/
def BigNumber.cmp (a b : BigNumber) : Ordering :=
  cmpBE a.prec.reverse b.prec.reverse

/-- The limb loop of `AddAssign::add_assign`: per limb,
`num = self[i] + rhs[i] + carry` in `u32`, new limb `num % BASE`,
carry 0 if `num < BASE` else 1. -/
def addDigits : List Nat → List Nat → Nat → List Nat
  | x :: xs, y :: ys, carry =>
    let num := (x + y + carry) % U32MOD
    num % BASE :: addDigits xs ys (if num < BASE then 0 else 1)
  | _, _, _ => []

theorem addDigits_length : ∀ (u v : List Nat) (c : Nat), u.length = v.length →
    (addDigits u v c).length = u.length
  | [], [], _, _ => rfl
  | _ :: xs, _ :: ys, c, h => by
    simp only [addDigits, List.length_cons]
    rw [addDigits_length xs ys _ (by simpa using h)]
  | [], _ :: _, _, h => by simp at h
  | _ :: _, [], _, h => by simp at h

/-- `AddAssign::add_assign` (also `Add::add`): carry-propagating addition,
truncating the final carry. -/
def add_assign (a b : BigNumber) : BigNumber :=
  ⟨addDigits a.prec b.prec 0, by rw [addDigits_length _ _ _ (by rw [a.hlen, b.hlen]), a.hlen]⟩

/-- The limb loop of `SubAssign::sub_assign`: per limb,
`num = self[i] - rhs[i] + carry` in `i64`, new limb `num.rem_euclid(BASE)`,
carry 0 if `num >= 0` else -1. -/
def subDigits : List Nat → List Nat → Int → List Nat
  | x :: xs, y :: ys, carry =>
    let num : Int := (x : Int) - (y : Int) + carry
    (num % (BASE : Int)).toNat :: subDigits xs ys (if 0 ≤ num then 0 else -1)
  | _, _, _ => []

theorem subDigits_length : ∀ (u v : List Nat) (c : Int), u.length = v.length →
    (subDigits u v c).length = u.length
  | [], [], _, _ => rfl
  | _ :: xs, _ :: ys, c, h => by
    simp only [subDigits, List.length_cons]
    rw [subDigits_length xs ys _ (by simpa using h)]
  | [], _ :: _, _, h => by simp at h
  | _ :: _, [], _, h => by simp at h

/-- `SubAssign::sub_assign` (also `Sub::sub`): if `rhs > self` the result
is the zero value, else borrow-propagating subtraction. -/
def sub_assign (a b : BigNumber) : BigNumber :=
  if BigNumber.cmp b a = Ordering.gt then BigNumber.empty
  else ⟨subDigits a.prec b.prec 0, by
    rw [subDigits_length _ _ _ (by rw [a.hlen, b.hlen]), a.hlen]⟩

/-- The inner (`j`) loop of `MulAssign::mul_assign`: for each `j`, skip if
`i + j > w.len() - 1`, else `uvb = w[i+j] + self[i]*rhs[j] + c` in `u32`,
`w[i+j] = uvb.rem_euclid(BASE)`, `c = uvb / BASE`. `ai` is `self.prec[i]`
and `bd` is `rhs.prec`. -/
def mulInner (ai : Nat) (bd : List Nat) (i : Nat) : List Nat → List Nat → Nat → List Nat
  | [], w, _ => w
  | j :: js, w, c =>
    if i + j > w.length - 1 then mulInner ai bd i js w c
    else
      let uvb := (w.getD (i + j) 0 + ai * bd.getD j 0 + c) % U32MOD
      mulInner ai bd i js (w.set (i + j) (uvb % BASE)) (uvb / BASE)

/-- The outer (`i`) loop of `MulAssign::mul_assign`: `i` ranges over
`0..rhs.prec.len()`, the carry resets to 0, and the inner loop ranges over
`0..self.prec.len()`. -/
def mulOuter (ad bd : List Nat) : List Nat → List Nat → List Nat
  | [], w => w
  | i :: is, w => mulOuter ad bd is (mulInner (ad.getD i 0) bd i (List.range ad.length) w 0)

theorem mulInner_length (ai : Nat) (bd : List Nat) (i : Nat) :
    ∀ (js w : List Nat) (c : Nat), (mulInner ai bd i js w c).length = w.length
  | [], _, _ => rfl
  | j :: js, w, c => by
    simp only [mulInner]
    split
    · exact mulInner_length ai bd i js w c
    · rw [mulInner_length ai bd i js _ _, List.length_set]

theorem mulOuter_length (ad bd : List Nat) :
    ∀ (is w : List Nat), (mulOuter ad bd is w).length = w.length
  | [], _ => rfl
  | i :: is, w => by
    simp only [mulOuter]
    rw [mulOuter_length ad bd is _, mulInner_length]

/-- `MulAssign::mul_assign` (also `Mul::mul`): schoolbook convolution into
a fresh zero accumulator array, dropping partial products and carries that
land beyond the last limb. -/
def mul_assign (a b : BigNumber) : BigNumber :=
  ⟨mulOuter a.prec b.prec (List.range b.prec.length) BigNumber.empty.prec, by
    rw [mulOuter_length, BigNumber.empty.hlen]⟩

/-- The `while remainder > shifted_divisor` loop of `DivAssign::div_assign`,
with fuel: each iteration subtracts `s` from the remainder and increments
the current quotient limb `qd` (a `u32`). Returns `none` iff the fuel runs
out while the guard still holds. -/
def whileSub (s : BigNumber) : Nat → BigNumber → Nat → Option (BigNumber × Nat)
  | 0, r, qd => if BigNumber.cmp r s = Ordering.gt then none else some (r, qd)
  | fuel + 1, r, qd =>
    if BigNumber.cmp r s = Ordering.gt then
      whileSub s fuel (sub_assign r s) ((qd + 1) % U32MOD)
    else some (r, qd)

/-- Write one limb of the quotient accumulator. -/
def setPrec (q : BigNumber) (i v : Nat) : BigNumber :=
  ⟨q.prec.set i v, by rw [List.length_set, q.hlen]⟩

/-- The digit-position loop of `DivAssign::div_assign`: for each position
`i` (taken from the list, the caller passes `NUMBER_SIZE-1` down to `0`),
rotate the divisor right by `i` and run the repeated-subtraction loop on
the running remainder, storing the subtraction count in quotient limb `i`. -/
def divLoop (b : BigNumber) (fuel : Nat) :
    List Nat → BigNumber → BigNumber → Option (BigNumber × BigNumber)
  | [], r, q => some (q, r)
  | i :: is, r, q =>
    match whileSub (b.rotated_right i) fuel r (q.prec.getD i 0) with
    | none => none
    | some (r', qd) => divLoop b fuel is r' (setPrec q i qd)

/-- `DivAssign::div_assign` (also `Div::div`): long division by repeated
subtraction over positions `NUMBER_SIZE-1` down to `0`; the dividend is
replaced by the quotient and the remainder is discarded. `none` models the
source's non-termination (fuel exhaustion). -/
def div_assign (a b : BigNumber) (fuel : Nat) : Option BigNumber :=
  (divLoop b fuel ((List.range NUMBER_SIZE).reverse) a BigNumber.empty).map (fun p => p.1)

/-- The limbs-in-range invariant: every limb lies in `[0, BASE)`. -/
def Reduced (x : BigNumber) : Prop := ∀ d ∈ x.prec, d < BASE

/-- The represented magnitude: `Σ limb[i] * BASE^i`. -/
def toVal (x : BigNumber) : Nat := Nat.ofDigits BASE x.prec

theorem toVal_def (x : BigNumber) : Nat.ofDigits BASE x.prec = toVal x := rfl

theorem one_lt_BASE : 1 < BASE := by norm_num [BASE]

theorem BASE_pos : 0 < BASE := by norm_num [BASE]

theorem ofDigits_replicate_zero : ∀ n : Nat, Nat.ofDigits BASE (List.replicate n 0) = 0
  | 0 => rfl
  | n + 1 => by
    rw [List.replicate_succ, Nat.ofDigits_cons, ofDigits_replicate_zero n]
    simp

theorem toVal_empty : toVal BigNumber.empty = 0 :=
  ofDigits_replicate_zero NUMBER_SIZE

theorem toVal_from' (n : Nat) : toVal (BigNumber.from' n) = n := by
  simp only [toVal, BigNumber.from', Nat.ofDigits_cons, ofDigits_replicate_zero, Nat.mul_zero,
    Nat.add_zero]

theorem Reduced_empty : Reduced BigNumber.empty := by
  intro d hd
  rw [List.eq_of_mem_replicate hd]
  exact BASE_pos

theorem Reduced_from' {n : Nat} (h : n < BASE) : Reduced (BigNumber.from' n) := by
  intro d hd
  rcases List.mem_cons.1 hd with rfl | hd
  · exact h
  · rw [List.eq_of_mem_replicate hd]; exact BASE_pos

theorem toVal_lt {x : BigNumber} (hx : Reduced x) : toVal x < BASE ^ NUMBER_SIZE := by
  have := Nat.ofDigits_lt_base_pow_length one_lt_BASE hx
  rwa [x.hlen] at this

theorem nat_compare_congr {a b a' b' : Nat} (h1 : a < b ↔ a' < b')
    (h2 : b < a ↔ b' < a') : compare a b = compare a' b' := by
  rcases Nat.lt_trichotomy a b with h | h | h
  · rw [Nat.compare_eq_lt.2 h]
    exact (Nat.compare_eq_lt.2 (h1.1 h)).symm
  · subst h
    have hne : a' = b' := by
      have := h1.2
      have := h2.2
      omega
    subst hne
    rw [Nat.compare_eq_eq.2 rfl, Nat.compare_eq_eq.2 rfl]
  · rw [Nat.compare_eq_gt.2 h]
    exact (Nat.compare_eq_gt.2 (h2.1 h)).symm

theorem cmpBE_spec : ∀ (p q : List Nat), p.length = q.length →
    (∀ d ∈ p, d < BASE) → (∀ d ∈ q, d < BASE) →
    cmpBE p q = compare (Nat.ofDigits BASE p.reverse) (Nat.ofDigits BASE q.reverse)
  | [], [], _, _, _ => by
    simp only [List.reverse_nil, Nat.ofDigits_nil]
    exact (Nat.compare_eq_eq.2 rfl).symm
  | [], _ :: _, h, _, _ => by simp at h
  | _ :: _, [], h, _, _ => by simp at h
  | x :: xs, y :: ys, h, hp, hq => by
    have L : xs.length = ys.length := by simpa using h
    rw [List.forall_mem_cons] at hp hq
    have hV1 : Nat.ofDigits BASE xs.reverse < BASE ^ xs.length := by
      have := Nat.ofDigits_lt_base_pow_length one_lt_BASE
        (l := xs.reverse) (fun d hd => hp.2 d (List.mem_reverse.1 hd))
      rwa [List.length_reverse] at this
    have hV2 : Nat.ofDigits BASE ys.reverse < BASE ^ xs.length := by
      have := Nat.ofDigits_lt_base_pow_length one_lt_BASE
        (l := ys.reverse) (fun d hd => hq.2 d (List.mem_reverse.1 hd))
      rwa [List.length_reverse, ← L] at this
    rw [List.reverse_cons, List.reverse_cons, Nat.ofDigits_append, Nat.ofDigits_append,
      Nat.ofDigits_singleton, Nat.ofDigits_singleton, List.length_reverse, List.length_reverse,
      ← L]
    show (match compare x y with
      | Ordering.eq => cmpBE xs ys
      | ord => ord) = _
    rcases Nat.lt_trichotomy x y with hxy | hxy | hxy
    · rw [Nat.compare_eq_lt.2 hxy]
      refine (Nat.compare_eq_lt.2 ?_).symm
      calc Nat.ofDigits BASE xs.reverse + BASE ^ xs.length * x
          < BASE ^ xs.length + BASE ^ xs.length * x := by
            exact Nat.add_lt_add_right hV1 _
        _ = BASE ^ xs.length * (x + 1) := by ring
        _ ≤ BASE ^ xs.length * y := Nat.mul_le_mul_left _ hxy
        _ ≤ Nat.ofDigits BASE ys.reverse + BASE ^ xs.length * y := Nat.le_add_left _ _
    · subst hxy
      rw [Nat.compare_eq_eq.2 rfl]
      rw [cmpBE_spec xs ys L hp.2 hq.2]
      exact nat_compare_congr (by omega) (by omega)
    · rw [Nat.compare_eq_gt.2 hxy]
      refine (Nat.compare_eq_gt.2 ?_).symm
      calc Nat.ofDigits BASE ys.reverse + BASE ^ xs.length * y
          < BASE ^ xs.length + BASE ^ xs.length * y := by
            exact Nat.add_lt_add_right hV2 _
        _ = BASE ^ xs.length * (y + 1) := by ring
        _ ≤ BASE ^ xs.length * x := Nat.mul_le_mul_left _ hxy
        _ ≤ Nat.ofDigits BASE xs.reverse + BASE ^ xs.length * x := Nat.le_add_left _ _

/-- For reduced values, the source's most-significant-first limb comparison
is the comparison of the represented magnitudes. -/
theorem cmp_spec {a b : BigNumber} (ha : Reduced a) (hb : Reduced b) :
    BigNumber.cmp a b = compare (toVal a) (toVal b) := by
  have := cmpBE_spec a.prec.reverse b.prec.reverse
    (by rw [List.length_reverse, List.length_reverse, a.hlen, b.hlen])
    (fun d hd => ha d (List.mem_reverse.1 hd))
    (fun d hd => hb d (List.mem_reverse.1 hd))
  rwa [List.reverse_reverse, List.reverse_reverse] at this

theorem cmp_gt_iff {a b : BigNumber} (ha : Reduced a) (hb : Reduced b) :
    BigNumber.cmp a b = Ordering.gt ↔ toVal b < toVal a := by
  rw [cmp_spec ha hb]
  exact Nat.compare_eq_gt

theorem cmp_lt_iff {a b : BigNumber} (ha : Reduced a) (hb : Reduced b) :
    BigNumber.cmp a b = Ordering.lt ↔ toVal a < toVal b := by
  rw [cmp_spec ha hb]
  exact Nat.compare_eq_lt

theorem cmp_eq_iff_val {a b : BigNumber} (ha : Reduced a) (hb : Reduced b) :
    BigNumber.cmp a b = Ordering.eq ↔ toVal a = toVal b := by
  rw [cmp_spec ha hb]
  exact Nat.compare_eq_eq

theorem ofDigits_inj : ∀ (u v : List Nat), u.length = v.length →
    (∀ d ∈ u, d < BASE) → (∀ d ∈ v, d < BASE) →
    Nat.ofDigits BASE u = Nat.ofDigits BASE v → u = v
  | [], [], _, _, _, _ => rfl
  | [], _ :: _, h, _, _, _ => by simp at h
  | _ :: _, [], h, _, _, _ => by simp at h
  | x :: xs, y :: ys, h, hu, hv, hval => by
    rw [List.forall_mem_cons] at hu hv
    rw [Nat.ofDigits_cons, Nat.ofDigits_cons] at hval
    have hx : x = y := by
      have e1 : (x + BASE * Nat.ofDigits BASE xs) % BASE = x := by
        rw [Nat.add_mul_mod_self_left, Nat.mod_eq_of_lt hu.1]
      have e2 : (y + BASE * Nat.ofDigits BASE ys) % BASE = y := by
        rw [Nat.add_mul_mod_self_left, Nat.mod_eq_of_lt hv.1]
      rw [← e1, ← e2, hval]
    subst hx
    have htl : Nat.ofDigits BASE xs = Nat.ofDigits BASE ys :=
      Nat.eq_of_mul_eq_mul_left (BASE_pos) (by omega)
    rw [ofDigits_inj xs ys (by simpa using h) hu.2 hv.2 htl]

/-- Reduced values with equal magnitudes are equal limb-for-limb. -/
theorem toVal_inj {a b : BigNumber} (ha : Reduced a) (hb : Reduced b)
    (h : toVal a = toVal b) : a = b :=
  BigNumber.ext' (ofDigits_inj a.prec b.prec (by rw [a.hlen, b.hlen]) ha hb h)

theorem BASE_eq : BASE = 65535 := rfl

theorem ofDigits_cons_int (b : Int) (hd : Nat) (tl : List Nat) :
    Nat.ofDigits b (hd :: tl) = hd + b * Nat.ofDigits b tl := rfl

theorem U32MOD_eq : U32MOD = 4294967296 := rfl

theorem nat_mod_decomp {r t M : Nat} (hr : r < BASE) (hM : 0 < M) :
    (r + BASE * t) % (BASE * M) = r + BASE * (t % M) := by
  have e : r + BASE * t = r + BASE * (t % M) + BASE * M * (t / M) := by
    conv_lhs => rw [show t = M * (t / M) + t % M from (Nat.div_add_mod t M).symm]
    ring
  rw [e, Nat.add_mul_mod_self_left]
  apply Nat.mod_eq_of_lt
  have h1 : t % M + 1 ≤ M := Nat.mod_lt t hM
  have h2 : BASE * (t % M + 1) ≤ BASE * M := Nat.mul_le_mul_left _ h1
  rw [Nat.mul_add, Nat.mul_one] at h2
  omega

theorem int_mod_decomp {r t M : Int} (hr0 : 0 ≤ r) (hr : r < (BASE : Int)) (hM : 0 < M) :
    (r + (BASE : Int) * t) % ((BASE : Int) * M) = r + (BASE : Int) * (t % M) := by
  have e : r + (BASE : Int) * t = r + BASE * (t % M) + BASE * M * (t / M) := by
    conv_lhs => rw [show t = M * (t / M) + t % M from (Int.ediv_add_emod t M).symm]
    ring
  rw [e, Int.add_mul_emod_self_left]
  apply Int.emod_eq_of_lt
  · have := Int.emod_nonneg t (ne_of_gt hM)
    positivity
  · have h1 : t % M + 1 ≤ M := Int.emod_lt_of_pos t hM
    have h2 : (BASE : Int) * (t % M + 1) ≤ BASE * M := by
      apply mul_le_mul_of_nonneg_left h1
      positivity
    rw [mul_add, mul_one] at h2
    linarith

theorem addDigits_spec : ∀ (u v : List Nat) (c : Nat), u.length = v.length →
    (∀ d ∈ u, d < BASE) → (∀ d ∈ v, d < BASE) → c ≤ 1 →
    (∀ d ∈ addDigits u v c, d < BASE) ∧
      Nat.ofDigits BASE (addDigits u v c) =
        (Nat.ofDigits BASE u + Nat.ofDigits BASE v + c) % BASE ^ u.length
  | [], [], c, _, _, _, hc => by
    refine ⟨fun d hd => by simp [addDigits] at hd, ?_⟩
    simp [addDigits]
    omega
  | [], _ :: _, c, h, _, _, _ => by simp at h
  | _ :: _, [], c, h, _, _, _ => by simp at h
  | x :: xs, y :: ys, c, h, hu, hv, hc => by
    rw [List.forall_mem_cons] at hu hv
    have L : xs.length = ys.length := by simpa using h
    have hx := hu.1
    have hy := hv.1
    have hnum : (x + y + c) % U32MOD = x + y + c := by
      apply Nat.mod_eq_of_lt
      rw [BASE_eq] at hx hy
      rw [U32MOD_eq]
      omega
    have hcar : (if x + y + c < BASE then 0 else 1) = (x + y + c) / BASE := by
      rw [BASE_eq] at hx hy ⊢
      split <;> omega
    have hq : (x + y + c) / BASE ≤ 1 := by
      rw [BASE_eq] at hx hy ⊢
      omega
    obtain ⟨ih1, ih2⟩ := addDigits_spec xs ys ((x + y + c) / BASE) L hu.2 hv.2 hq
    simp only [addDigits, hnum, hcar]
    constructor
    · intro d hd
      rcases List.mem_cons.1 hd with rfl | hd
      · exact Nat.mod_lt _ BASE_pos
      · exact ih1 d hd
    · rw [List.length_cons, Nat.ofDigits_cons, Nat.ofDigits_cons, Nat.ofDigits_cons, ih2]
      have hd : (x + y + c) % BASE < BASE := Nat.mod_lt _ BASE_pos
      have hdm : BASE * ((x + y + c) / BASE) + (x + y + c) % BASE = x + y + c :=
        Nat.div_add_mod _ _
      have key : x + BASE * Nat.ofDigits BASE xs + (y + BASE * Nat.ofDigits BASE ys) + c
          = (x + y + c) % BASE +
            BASE * (Nat.ofDigits BASE xs + Nat.ofDigits BASE ys + (x + y + c) / BASE) := by
        rw [Nat.mul_add, Nat.mul_add]
        omega
      rw [pow_succ', key, nat_mod_decomp hd (pow_pos BASE_pos _)]

/-- Addition is carry-correct: for reduced operands the result is reduced
and represents the sum modulo `BASE ^ NUMBER_SIZE`. -/
theorem add_spec {a b : BigNumber} (ha : Reduced a) (hb : Reduced b) :
    Reduced (add_assign a b) ∧
      toVal (add_assign a b) = (toVal a + toVal b) % BASE ^ NUMBER_SIZE := by
  have h := addDigits_spec a.prec b.prec 0 (by rw [a.hlen, b.hlen]) ha hb (by omega)
  refine ⟨h.1, ?_⟩
  have := h.2
  rw [a.hlen, Nat.add_zero] at this
  exact this

theorem subDigits_spec : ∀ (u v : List Nat) (c : Int), u.length = v.length →
    (∀ d ∈ u, d < BASE) → (∀ d ∈ v, d < BASE) → (c = 0 ∨ c = -1) →
    (∀ d ∈ subDigits u v c, d < BASE) ∧
      ((Nat.ofDigits BASE (subDigits u v c) : Int) =
        ((Nat.ofDigits BASE u : Int) - (Nat.ofDigits BASE v : Int) + c) %
          ((BASE : Int) ^ u.length))
  | [], [], c, _, _, _, hc => by
    refine ⟨fun d hd => by simp [subDigits] at hd, ?_⟩
    rcases hc with rfl | rfl <;>
      simp [subDigits, show Nat.ofDigits ((BASE : Nat) : Int) [] = 0 from rfl]
  | [], _ :: _, c, h, _, _, _ => by simp at h
  | _ :: _, [], c, h, _, _, _ => by simp at h
  | x :: xs, y :: ys, c, h, hu, hv, hc => by
    rw [List.forall_mem_cons] at hu hv
    have L : xs.length = ys.length := by simpa using h
    have hx := hu.1
    have hy := hv.1
    have hBcast : ((BASE : Nat) : Int) = 65535 := by rw [BASE_eq]; norm_num
    have hDmod : ((x : Int) - y + c) % (BASE : Int)
        = (((x : Int) - y + c) % (BASE : Int)).toNat := by
      rw [Int.toNat_of_nonneg (Int.emod_nonneg _ (by rw [hBcast]; norm_num))]
    have hdlt : (((x : Int) - y + c) % (BASE : Int)).toNat < BASE := by
      have h1 : ((x : Int) - y + c) % (BASE : Int) < (BASE : Int) :=
        Int.emod_lt_of_pos _ (by rw [hBcast]; norm_num)
      omega
    have hkey : ((x : Int) - y + c) % (BASE : Int)
        + BASE * (if 0 ≤ (x : Int) - y + c then 0 else -1) = (x : Int) - y + c := by
      rcases hc with rfl | rfl <;>
        · rw [BASE_eq] at hx hy
          rw [hBcast] at *
          split <;> omega
    obtain ⟨ih1, ih2⟩ := subDigits_spec xs ys (if 0 ≤ (x : Int) - y + c then 0 else -1) L
      hu.2 hv.2 (by split <;> simp)
    simp only [subDigits]
    constructor
    · intro d hd
      rcases List.mem_cons.1 hd with rfl | hd
      · exact hdlt
      · exact ih1 d hd
    · rw [List.length_cons]
      simp only [ofDigits_cons_int]
      rw [← hDmod, ih2]
      have key2 : (x : Int) + ((BASE : Nat) : Int) * Nat.ofDigits ((BASE : Nat) : Int) xs
            - ((y : Int) + ((BASE : Nat) : Int) * Nat.ofDigits ((BASE : Nat) : Int) ys) + c
          = ((x : Int) - y + c) % ((BASE : Nat) : Int) +
            ((BASE : Nat) : Int) * (Nat.ofDigits ((BASE : Nat) : Int) xs
              - Nat.ofDigits ((BASE : Nat) : Int) ys
              + (if 0 ≤ (x : Int) - y + c then 0 else -1)) := by
        rw [mul_add, mul_sub]
        linarith [hkey]
      rw [pow_succ', key2,
        int_mod_decomp (Int.emod_nonneg _ (by rw [hBcast]; norm_num))
          (Int.emod_lt_of_pos _ (by rw [hBcast]; norm_num)) (by rw [hBcast]; positivity)]

/-- Subtraction, non-saturating branch: when `rhs ≤ self` by magnitude the
result is reduced and represents the exact difference. -/
theorem sub_spec_le {a b : BigNumber} (ha : Reduced a) (hb : Reduced b)
    (h : toVal b ≤ toVal a) :
    Reduced (sub_assign a b) ∧ toVal (sub_assign a b) = toVal a - toVal b := by
  have hng : ¬ BigNumber.cmp b a = Ordering.gt := by
    rw [cmp_gt_iff hb ha]
    omega
  have hs := subDigits_spec a.prec b.prec 0 (by rw [a.hlen, b.hlen]) ha hb (Or.inl rfl)
  rw [sub_assign, if_neg hng]
  refine ⟨hs.1, ?_⟩
  have hv := hs.2
  rw [a.hlen, add_zero] at hv
  simp only [← Nat.coe_ofDigits] at hv
  rw [toVal_def, toVal_def] at hv
  have hlt : (toVal a : Int) - toVal b < ((BASE : Nat) : Int) ^ NUMBER_SIZE := by
    have h1 : toVal a < BASE ^ NUMBER_SIZE := toVal_lt ha
    have h2 : ((BASE ^ NUMBER_SIZE : Nat) : Int) = ((BASE : Nat) : Int) ^ NUMBER_SIZE := by
      push_cast
      ring
    omega
  have hge : 0 ≤ (toVal a : Int) - toVal b := by omega
  rw [Int.emod_eq_of_lt hge hlt] at hv
  show Nat.ofDigits BASE (subDigits a.prec b.prec 0) = toVal a - toVal b
  omega

/-- Subtraction, saturating branch: when `rhs > self` the result is the
zero value. -/
theorem sub_spec_gt {a b : BigNumber} (h : BigNumber.cmp b a = Ordering.gt) :
    sub_assign a b = BigNumber.empty := by
  rw [sub_assign, if_pos h]

theorem getD_lt_of_forall : ∀ {l : List Nat}, (∀ d ∈ l, d < BASE) → ∀ (k : Nat),
    l.getD k 0 < BASE
  | [], _, _ => BASE_pos
  | x :: _, h, 0 => h x (List.mem_cons_self ..)
  | _ :: xs, h, k + 1 =>
    getD_lt_of_forall (fun d hd => h d (List.mem_cons_of_mem _ hd)) k

theorem drop_getD_cons : ∀ (l : List Nat) (k : Nat), k < l.length →
    l.drop k = l.getD k 0 :: l.drop (k + 1)
  | _ :: _, 0, _ => rfl
  | x :: xs, k + 1, h => by
    simp only [List.drop_succ_cons, List.getD_cons_succ]
    exact drop_getD_cons xs k (by simpa using h)

theorem ofDigits_set : ∀ (l : List Nat) (k v : Nat), k < l.length →
    Nat.ofDigits BASE (l.set k v) + l.getD k 0 * BASE ^ k
      = Nat.ofDigits BASE l + v * BASE ^ k
  | x :: xs, 0, v, _ => by
    simp only [List.set_cons_zero, List.getD_cons_zero, Nat.ofDigits_cons, pow_zero]
    ring
  | x :: xs, k + 1, v, h => by
    simp only [List.set_cons_succ, List.getD_cons_succ, Nat.ofDigits_cons]
    have ih := ofDigits_set xs k v (by simpa using h)
    zify at ih ⊢
    linear_combination (BASE : Int) * ih

theorem add_mul_pow_mod {W X k : Nat} (h : NUMBER_SIZE ≤ k) :
    (W + X * BASE ^ k) % BASE ^ NUMBER_SIZE = W % BASE ^ NUMBER_SIZE := by
  have e : W + X * BASE ^ k
      = W + X * BASE ^ (k - NUMBER_SIZE) * BASE ^ NUMBER_SIZE := by
    rw [mul_assoc, ← pow_add, Nat.sub_add_cancel h]
  rw [e, Nat.add_mul_mod_self_right]

theorem acc_bound {wj bj ai c : Nat} (hwj : wj < BASE) (hbj : bj < BASE) (hai : ai < BASE)
    (hc : c < BASE) :
    wj + ai * bj + c < U32MOD ∧ (wj + ai * bj + c) / BASE < BASE := by
  have h1 : ai * bj ≤ 65534 * 65534 := by
    apply Nat.mul_le_mul
    · rw [BASE_eq] at hai
      omega
    · rw [BASE_eq] at hbj
      omega
  rw [BASE_eq] at hwj hbj hai hc ⊢
  rw [U32MOD_eq]
  refine ⟨by omega, ?_⟩
  omega

theorem mulInner_spec (ai : Nat) (bd : List Nat) (i : Nat) (hai : ai < BASE)
    (hbd : ∀ d ∈ bd, d < BASE) (hbl : bd.length = NUMBER_SIZE) :
    ∀ (m j : Nat) (w : List Nat) (c : Nat), j + m = NUMBER_SIZE →
      w.length = NUMBER_SIZE → (∀ d ∈ w, d < BASE) → c < BASE →
      (∀ d ∈ mulInner ai bd i (List.range' j m) w c, d < BASE) ∧
      (mulInner ai bd i (List.range' j m) w c).length = NUMBER_SIZE ∧
      Nat.ofDigits BASE (mulInner ai bd i (List.range' j m) w c) =
        (Nat.ofDigits BASE w + (ai * Nat.ofDigits BASE (bd.drop j) + c) * BASE ^ (i + j)) %
          BASE ^ NUMBER_SIZE
  | 0, j, w, c, hjm, hwl, hw, hc => by
    have hj : j = NUMBER_SIZE := by omega
    subst hj
    refine ⟨hw, hwl, ?_⟩
    have hWlt : Nat.ofDigits BASE w < BASE ^ NUMBER_SIZE := by
      have := Nat.ofDigits_lt_base_pow_length one_lt_BASE hw
      rwa [hwl] at this
    rw [← hbl, List.drop_length,
      show Nat.ofDigits BASE ([] : List Nat) = 0 from rfl, hbl,
      show (ai * 0 + c) * BASE ^ (i + NUMBER_SIZE) = c * BASE ^ i * BASE ^ NUMBER_SIZE by
        rw [pow_add]; ring,
      Nat.add_mul_mod_self_right, Nat.mod_eq_of_lt hWlt]
    rfl
  | m + 1, j, w, c, hjm, hwl, hw, hc => by
    rw [List.range'_succ]
    by_cases hskip : i + j > w.length - 1
    · rw [show mulInner ai bd i (j :: List.range' (j + 1) m) w c
          = mulInner ai bd i (List.range' (j + 1) m) w c from by
        simp only [mulInner, if_pos hskip]]
      obtain ⟨ih1, ih2, ih3⟩ :=
        mulInner_spec ai bd i hai hbd hbl m (j + 1) w c (by omega) hwl hw hc
      refine ⟨ih1, ih2, ?_⟩
      rw [ih3]
      have hik : NUMBER_SIZE ≤ i + j := by
        rw [hwl] at hskip
        simp only [NUMBER_SIZE] at hskip ⊢
        omega
      rw [show i + (j + 1) = (i + j) + 1 by omega]
      rw [add_mul_pow_mod (by omega), add_mul_pow_mod hik]
    · have hijN : i + j < NUMBER_SIZE := by
        rw [hwl] at hskip
        simp only [NUMBER_SIZE] at hskip ⊢
        omega
      have hwj : w.getD (i + j) 0 < BASE := getD_lt_of_forall hw _
      have hbj : bd.getD j 0 < BASE := getD_lt_of_forall hbd _
      obtain ⟨hexact, hcnew⟩ := acc_bound hwj hbj hai hc
      have huvb : (w.getD (i + j) 0 + ai * bd.getD j 0 + c) % U32MOD
          = w.getD (i + j) 0 + ai * bd.getD j 0 + c := Nat.mod_eq_of_lt hexact
      have hdnew : (w.getD (i + j) 0 + ai * bd.getD j 0 + c) % BASE < BASE :=
        Nat.mod_lt _ BASE_pos
      have hw' : ∀ d ∈ w.set (i + j) ((w.getD (i + j) 0 + ai * bd.getD j 0 + c) % BASE),
          d < BASE := by
        intro d hd
        rcases List.mem_or_eq_of_mem_set hd with hd | rfl
        · exact hw d hd
        · exact hdnew
      have hwl' : (w.set (i + j) ((w.getD (i + j) 0 + ai * bd.getD j 0 + c) % BASE)).length
          = NUMBER_SIZE := by
        rw [List.length_set, hwl]
      rw [show mulInner ai bd i (j :: List.range' (j + 1) m) w c
          = mulInner ai bd i (List.range' (j + 1) m)
              (w.set (i + j) ((w.getD (i + j) 0 + ai * bd.getD j 0 + c) % BASE))
              ((w.getD (i + j) 0 + ai * bd.getD j 0 + c) / BASE) from by
        simp only [mulInner, if_neg hskip, huvb]]
      obtain ⟨ih1, ih2, ih3⟩ := mulInner_spec ai bd i hai hbd hbl m (j + 1)
        (w.set (i + j) ((w.getD (i + j) 0 + ai * bd.getD j 0 + c) % BASE))
        ((w.getD (i + j) 0 + ai * bd.getD j 0 + c) / BASE) (by omega) hwl' hw' hcnew
      refine ⟨ih1, ih2, ?_⟩
      rw [ih3]
      congr 1
      have hsplit : Nat.ofDigits BASE (bd.drop j)
          = bd.getD j 0 + BASE * Nat.ofDigits BASE (bd.drop (j + 1)) := by
        rw [drop_getD_cons bd j (by omega), Nat.ofDigits_cons]
      have hdm : (w.getD (i + j) 0 + ai * bd.getD j 0 + c) % BASE
            + BASE * ((w.getD (i + j) 0 + ai * bd.getD j 0 + c) / BASE)
          = w.getD (i + j) 0 + ai * bd.getD j 0 + c := Nat.mod_add_div _ _
      have hset := ofDigits_set w (i + j)
        ((w.getD (i + j) 0 + ai * bd.getD j 0 + c) % BASE) (by omega)
      zify at hsplit hdm hset ⊢
      rw [show i + (j + 1) = (i + j) + 1 by omega]
      linear_combination hset + (BASE : Int) ^ (i + j) * hdm
        - (ai : Int) * (BASE : Int) ^ (i + j) * hsplit

theorem mulInner_reduced (ai : Nat) (bd : List Nat) (hai : ai < BASE)
    (hbd : ∀ d ∈ bd, d < BASE) (i : Nat) :
    ∀ (js w : List Nat) (c : Nat), (∀ d ∈ w, d < BASE) → c < BASE →
      ∀ d ∈ mulInner ai bd i js w c, d < BASE
  | [], _, _, hw, _ => hw
  | j :: js, w, c, hw, hc => by
    by_cases hskip : i + j > w.length - 1
    · rw [show mulInner ai bd i (j :: js) w c = mulInner ai bd i js w c from by
        simp only [mulInner, if_pos hskip]]
      exact mulInner_reduced ai bd hai hbd i js w c hw hc
    · have hwj : w.getD (i + j) 0 < BASE := getD_lt_of_forall hw _
      have hbj : bd.getD j 0 < BASE := getD_lt_of_forall hbd _
      obtain ⟨hexact, hcnew⟩ := acc_bound hwj hbj hai hc
      have huvb : (w.getD (i + j) 0 + ai * bd.getD j 0 + c) % U32MOD
          = w.getD (i + j) 0 + ai * bd.getD j 0 + c := Nat.mod_eq_of_lt hexact
      rw [show mulInner ai bd i (j :: js) w c
          = mulInner ai bd i js
              (w.set (i + j) ((w.getD (i + j) 0 + ai * bd.getD j 0 + c) % BASE))
              ((w.getD (i + j) 0 + ai * bd.getD j 0 + c) / BASE) from by
        simp only [mulInner, if_neg hskip, huvb]]
      refine mulInner_reduced ai bd hai hbd i js _ _ ?_ hcnew
      intro d hd
      rcases List.mem_or_eq_of_mem_set hd with hd | rfl
      · exact hw d hd
      · exact Nat.mod_lt _ BASE_pos

theorem mulOuter_spec (ad bd : List Nat) (had : ∀ d ∈ ad, d < BASE)
    (hbd : ∀ d ∈ bd, d < BASE) (hal : ad.length = NUMBER_SIZE)
    (hbl : bd.length = NUMBER_SIZE) :
    ∀ (m i0 : Nat) (w : List Nat), i0 + m = NUMBER_SIZE → w.length = NUMBER_SIZE →
      (∀ d ∈ w, d < BASE) →
      (∀ d ∈ mulOuter ad bd (List.range' i0 m) w, d < BASE) ∧
      (mulOuter ad bd (List.range' i0 m) w).length = NUMBER_SIZE ∧
      Nat.ofDigits BASE (mulOuter ad bd (List.range' i0 m) w) =
        (Nat.ofDigits BASE w
          + Nat.ofDigits BASE (ad.drop i0) * Nat.ofDigits BASE bd * BASE ^ i0) %
          BASE ^ NUMBER_SIZE
  | 0, i0, w, him, hwl, hw => by
    have hi : i0 = NUMBER_SIZE := by omega
    subst hi
    refine ⟨hw, hwl, ?_⟩
    have hWlt : Nat.ofDigits BASE w < BASE ^ NUMBER_SIZE := by
      have := Nat.ofDigits_lt_base_pow_length one_lt_BASE hw
      rwa [hwl] at this
    rw [← hal, List.drop_length,
      show Nat.ofDigits BASE ([] : List Nat) = 0 from rfl, hal,
      Nat.zero_mul, Nat.zero_mul, Nat.add_zero, Nat.mod_eq_of_lt hWlt]
    rfl
  | m + 1, i0, w, him, hwl, hw => by
    rw [List.range'_succ]
    rw [show mulOuter ad bd (i0 :: List.range' (i0 + 1) m) w
        = mulOuter ad bd (List.range' (i0 + 1) m)
            (mulInner (ad.getD i0 0) bd i0 (List.range ad.length) w 0) from rfl]
    have hai : ad.getD i0 0 < BASE := getD_lt_of_forall had _
    rw [show List.range ad.length = List.range' 0 NUMBER_SIZE by
      rw [List.range_eq_range', hal]]
    obtain ⟨hin1, hin2, hin3⟩ := mulInner_spec (ad.getD i0 0) bd i0 hai hbd hbl
      NUMBER_SIZE 0 w 0 (by omega) hwl hw BASE_pos
    obtain ⟨ih1, ih2, ih3⟩ := mulOuter_spec ad bd had hbd hal hbl m (i0 + 1)
      (mulInner (ad.getD i0 0) bd i0 (List.range' 0 NUMBER_SIZE) w 0) (by omega) hin2 hin1
    refine ⟨ih1, ih2, ?_⟩
    rw [ih3, hin3, Nat.mod_add_mod]
    congr 1
    rw [List.drop_zero] at *
    have hsplitA : Nat.ofDigits BASE (ad.drop i0)
        = ad.getD i0 0 + BASE * Nat.ofDigits BASE (ad.drop (i0 + 1)) := by
      rw [drop_getD_cons ad i0 (by omega), Nat.ofDigits_cons]
    rw [hsplitA]
    ring

/-- Multiplication is fixed-width modular: for reduced operands the result
is reduced and represents the product modulo `BASE ^ NUMBER_SIZE`. -/
theorem mul_spec {a b : BigNumber} (ha : Reduced a) (hb : Reduced b) :
    Reduced (mul_assign a b) ∧
      toVal (mul_assign a b) = (toVal a * toVal b) % BASE ^ NUMBER_SIZE := by
  have hrange : List.range b.prec.length = List.range' 0 NUMBER_SIZE := by
    rw [List.range_eq_range', b.hlen]
  obtain ⟨h1, _, h3⟩ := mulOuter_spec a.prec b.prec ha hb a.hlen b.hlen NUMBER_SIZE 0
    BigNumber.empty.prec (by omega) BigNumber.empty.hlen Reduced_empty
  constructor
  · show ∀ d ∈ mulOuter a.prec b.prec (List.range b.prec.length) BigNumber.empty.prec, d < BASE
    rw [hrange]
    exact h1
  · show Nat.ofDigits BASE
        (mulOuter a.prec b.prec (List.range b.prec.length) BigNumber.empty.prec)
      = (toVal a * toVal b) % BASE ^ NUMBER_SIZE
    rw [hrange, h3, List.drop_zero, pow_zero, mul_one,
      show Nat.ofDigits BASE BigNumber.empty.prec = 0 from toVal_empty, Nat.zero_add]
    rfl

/-- Ghost collector for C7: the list of the exact (unwrapped) accumulator
values `w[i+j] + self[i]*rhs[j] + c` computed by the inner loop of
`mul_assign`, in evaluation order, alongside the faithful state updates. -/
def mulInnerAccs (ai : Nat) (bd : List Nat) (i : Nat) : List Nat → List Nat → Nat → List Nat
  | [], _, _ => []
  | j :: js, w, c =>
    if i + j > w.length - 1 then mulInnerAccs ai bd i js w c
    else
      let exact := w.getD (i + j) 0 + ai * bd.getD j 0 + c
      exact :: mulInnerAccs ai bd i js (w.set (i + j) (exact % U32MOD % BASE))
        (exact % U32MOD / BASE)

/-- Ghost collector for C7, outer loop. -/
def mulOuterAccs (ad bd : List Nat) : List Nat → List Nat → List Nat
  | [], _ => []
  | i :: is, w =>
    mulInnerAccs (ad.getD i 0) bd i (List.range ad.length) w 0
      ++ mulOuterAccs ad bd is (mulInner (ad.getD i 0) bd i (List.range ad.length) w 0)

/-- All accumulator values arising during `mul_assign a b`. -/
def mulAccs (a b : BigNumber) : List Nat :=
  mulOuterAccs a.prec b.prec (List.range b.prec.length) BigNumber.empty.prec

theorem mulInnerAccs_bound (ai : Nat) (bd : List Nat) (hai : ai < BASE)
    (hbd : ∀ d ∈ bd, d < BASE) (i : Nat) :
    ∀ (js w : List Nat) (c : Nat), (∀ d ∈ w, d < BASE) → c < BASE →
      ∀ v ∈ mulInnerAccs ai bd i js w c, v < U32MOD
  | [], _, _, _, _ => by
    intro v hv
    simp [mulInnerAccs] at hv
  | j :: js, w, c, hw, hc => by
    by_cases hskip : i + j > w.length - 1
    · rw [show mulInnerAccs ai bd i (j :: js) w c = mulInnerAccs ai bd i js w c from by
        simp only [mulInnerAccs, if_pos hskip]]
      exact mulInnerAccs_bound ai bd hai hbd i js w c hw hc
    · have hwj : w.getD (i + j) 0 < BASE := getD_lt_of_forall hw _
      have hbj : bd.getD j 0 < BASE := getD_lt_of_forall hbd _
      obtain ⟨hexact, hcnew⟩ := acc_bound hwj hbj hai hc
      have huvb : (w.getD (i + j) 0 + ai * bd.getD j 0 + c) % U32MOD
          = w.getD (i + j) 0 + ai * bd.getD j 0 + c := Nat.mod_eq_of_lt hexact
      rw [show mulInnerAccs ai bd i (j :: js) w c
          = (w.getD (i + j) 0 + ai * bd.getD j 0 + c) :: mulInnerAccs ai bd i js
              (w.set (i + j) ((w.getD (i + j) 0 + ai * bd.getD j 0 + c) % BASE))
              ((w.getD (i + j) 0 + ai * bd.getD j 0 + c) / BASE) from by
        simp only [mulInnerAccs, if_neg hskip, huvb]]
      intro v hv
      rcases List.mem_cons.1 hv with rfl | hv
      · exact hexact
      · refine mulInnerAccs_bound ai bd hai hbd i js _ _ ?_ hcnew v hv
        intro d hd
        rcases List.mem_or_eq_of_mem_set hd with hd | rfl
        · exact hw d hd
        · exact Nat.mod_lt _ BASE_pos

theorem mulOuterAccs_bound (ad bd : List Nat) (had : ∀ d ∈ ad, d < BASE)
    (hbd : ∀ d ∈ bd, d < BASE) :
    ∀ (is w : List Nat), (∀ d ∈ w, d < BASE) →
      ∀ v ∈ mulOuterAccs ad bd is w, v < U32MOD
  | [], _, _ => by
    intro v hv
    simp [mulOuterAccs] at hv
  | i :: is, w, hw => by
    intro v hv
    rw [show mulOuterAccs ad bd (i :: is) w
        = mulInnerAccs (ad.getD i 0) bd i (List.range ad.length) w 0
            ++ mulOuterAccs ad bd is
              (mulInner (ad.getD i 0) bd i (List.range ad.length) w 0) from rfl] at hv
    have hai : ad.getD i 0 < BASE := getD_lt_of_forall had _
    rcases List.mem_append.1 hv with hv | hv
    · exact mulInnerAccs_bound (ad.getD i 0) bd hai hbd i _ w 0 hw BASE_pos v hv
    · exact mulOuterAccs_bound ad bd had hbd is _
        (mulInner_reduced (ad.getD i 0) bd hai hbd i _ w 0 hw BASE_pos) v hv

/-- Every exact accumulator value in a multiplication of reduced operands
fits in the `u32` accumulator. -/
theorem mulAccs_bound {a b : BigNumber} (ha : Reduced a) (hb : Reduced b) :
    ∀ v ∈ mulAccs a b, v < U32MOD :=
  mulOuterAccs_bound a.prec b.prec ha hb _ _ Reduced_empty

theorem getD_lt_of_forall_gen {M : Nat} (hM : 0 < M) : ∀ {l : List Nat},
    (∀ d ∈ l, d < M) → ∀ (k : Nat), l.getD k 0 < M
  | [], _, _ => hM
  | x :: _, h, 0 => h x (List.mem_cons_self ..)
  | _ :: xs, h, k + 1 =>
    getD_lt_of_forall_gen hM (fun d hd => h d (List.mem_cons_of_mem _ hd)) k

theorem getD_set_eq : ∀ (l : List Nat) (i v : Nat), i < l.length →
    (l.set i v).getD i 0 = v
  | _ :: _, 0, _, _ => rfl
  | _ :: xs, i + 1, v, h => by
    simp only [List.set_cons_succ, List.getD_cons_succ]
    exact getD_set_eq xs i v (by simpa using h)

theorem getD_set_ne : ∀ (l : List Nat) (i j v : Nat), i ≠ j →
    (l.set i v).getD j 0 = l.getD j 0
  | [], _, _, _, _ => rfl
  | _ :: _, 0, 0, _, h => absurd rfl h
  | _ :: _, 0, _ + 1, _, _ => by
    simp only [List.set_cons_zero, List.getD_cons_succ]
  | _ :: _, _ + 1, 0, _, _ => by
    simp only [List.set_cons_succ, List.getD_cons_zero]
  | _ :: xs, i + 1, j + 1, v, h => by
    simp only [List.set_cons_succ, List.getD_cons_succ]
    exact getD_set_ne xs i j v (by omega)

theorem set_getD_self : ∀ (l : List Nat) (i : Nat), l.set i (l.getD i 0) = l
  | [], _ => rfl
  | _ :: _, 0 => rfl
  | x :: xs, i + 1 => by
    simp only [List.set_cons_succ, List.getD_cons_succ]
    rw [set_getD_self xs i]

theorem whileSub_not_gt {r s : BigNumber} (h : ¬ BigNumber.cmp r s = Ordering.gt) :
    ∀ (fuel qd : Nat), whileSub s fuel r qd = some (r, qd)
  | 0, qd => by simp only [whileSub, if_neg h]
  | fuel + 1, qd => by simp only [whileSub, if_neg h]

theorem sub_empty {r : BigNumber} (hr : Reduced r) : sub_assign r BigNumber.empty = r := by
  obtain ⟨h1, h2⟩ := sub_spec_le hr Reduced_empty (by rw [toVal_empty]; omega)
  apply toVal_inj h1 hr
  rw [h2, toVal_empty, Nat.sub_zero]

/-- The repeated-subtraction loop never terminates on a zero divisor and a
nonzero remainder: every fuel bound is exhausted. -/
theorem whileSub_zero_divisor {r : BigNumber} (hr : Reduced r) (hpos : 0 < toVal r) :
    ∀ (fuel qd : Nat), whileSub BigNumber.empty fuel r qd = none
  | 0, qd => by
    have hgt : BigNumber.cmp r BigNumber.empty = Ordering.gt := by
      rw [cmp_gt_iff hr Reduced_empty, toVal_empty]
      exact hpos
    simp only [whileSub, if_pos hgt]
  | fuel + 1, qd => by
    have hgt : BigNumber.cmp r BigNumber.empty = Ordering.gt := by
      rw [cmp_gt_iff hr Reduced_empty, toVal_empty]
      exact hpos
    simp only [whileSub, if_pos hgt, sub_empty hr]
    exact whileSub_zero_divisor hr hpos fuel _

/-- Characterisation of the repeated-subtraction loop on a nonzero reduced
divisor: it performs exactly `(toVal r - 1) / toVal s` subtractions. -/
theorem whileSub_spec : ∀ (V : Nat) (r s : BigNumber) (qd fuel : Nat), toVal r ≤ V →
    Reduced r → Reduced s → 0 < toVal s → (toVal r - 1) / toVal s ≤ fuel → qd < U32MOD →
    ∃ r', whileSub s fuel r qd
        = some (r', (qd + (toVal r - 1) / toVal s) % U32MOD) ∧
      Reduced r' ∧ toVal r' = toVal r - (toVal r - 1) / toVal s * toVal s := by
  intro V
  induction V with
  | zero =>
    intro r s qd fuel hV hr hs hsp hk hqd
    have h0 : toVal r = 0 := by omega
    have hng : ¬ BigNumber.cmp r s = Ordering.gt := by
      rw [cmp_gt_iff hr hs]
      omega
    refine ⟨r, ?_, hr, ?_⟩
    · rw [whileSub_not_gt hng, h0]
      simp [Nat.mod_eq_of_lt hqd]
    · rw [h0]
      simp
  | succ V ih =>
    intro r s qd fuel hV hr hs hsp hk hqd
    by_cases hgt : BigNumber.cmp r s = Ordering.gt
    · have hlt : toVal s < toVal r := (cmp_gt_iff hr hs).1 hgt
      have hk1 : 1 ≤ (toVal r - 1) / toVal s := by
        rw [Nat.le_div_iff_mul_le hsp]
        omega
      obtain ⟨f, rfl⟩ : ∃ f, fuel = f + 1 := ⟨fuel - 1, by omega⟩
      obtain ⟨hred2, hval2⟩ := sub_spec_le hr hs (le_of_lt hlt)
      have hV2 : toVal (sub_assign r s) ≤ V := by
        rw [hval2]
        omega
      have hdiv : (toVal r - 1) / toVal s = (toVal (sub_assign r s) - 1) / toVal s + 1 := by
        have e1 : toVal r - 1 - toVal s = toVal (sub_assign r s) - 1 := by
          rw [hval2]
          omega
        rw [Nat.div_eq_sub_div hsp (by omega), e1]
      obtain ⟨r', hw, hr', hval'⟩ := ih (sub_assign r s) s ((qd + 1) % U32MOD) f hV2 hred2
        hs hsp (by omega) (Nat.mod_lt _ (by rw [U32MOD_eq]; omega))
      refine ⟨r', ?_, hr', ?_⟩
      · rw [show whileSub s (f + 1) r qd
            = whileSub s f (sub_assign r s) ((qd + 1) % U32MOD) from by
          simp only [whileSub, if_pos hgt]]
        rw [hw, Nat.mod_add_mod,
          show qd + 1 + (toVal (sub_assign r s) - 1) / toVal s
            = qd + (toVal r - 1) / toVal s from by rw [hdiv]; omega]
      · have e3 : (toVal r - 1) / toVal s * toVal s
            = (toVal (sub_assign r s) - 1) / toVal s * toVal s + toVal s := by
          rw [hdiv]
          ring
        omega
    · have hle : toVal r ≤ toVal s := by
        have hnl : ¬ toVal s < toVal r := fun hh => hgt ((cmp_gt_iff hr hs).2 hh)
        omega
      have hk0 : (toVal r - 1) / toVal s = 0 := Nat.div_eq_of_lt (by omega)
      refine ⟨r, ?_, hr, ?_⟩
      · rw [whileSub_not_gt hgt, hk0, Nat.add_zero, Nat.mod_eq_of_lt hqd]
      · rw [hk0]
        simp

theorem NUMBER_SIZE_eq : NUMBER_SIZE = 2550 := rfl

theorem getD_replicate_zero : ∀ (n k : Nat), (List.replicate n (0 : Nat)).getD k 0 = 0
  | 0, _ => rfl
  | _ + 1, 0 => rfl
  | n + 1, k + 1 => by
    rw [List.replicate_succ, List.getD_cons_succ]
    exact getD_replicate_zero n k

theorem rotated_right_empty (i : Nat) : BigNumber.empty.rotated_right i = BigNumber.empty :=
  BigNumber.ext' (List.rotate_replicate 0 NUMBER_SIZE (i % NUMBER_SIZE))

theorem rotated_right_zero (x : BigNumber) : x.rotated_right 0 = x := by
  apply BigNumber.ext'
  show x.prec.rotate (0 % NUMBER_SIZE) = x.prec
  rw [Nat.zero_mod, List.rotate_zero]

theorem Reduced_rotated {b : BigNumber} (hb : Reduced b) (i : Nat) :
    Reduced (b.rotated_right i) := by
  intro d hd
  exact hb d ((List.rotate_perm (b.prec) (i % NUMBER_SIZE)).mem_iff.1 hd)

theorem ofDigits_eq_zero_iff : ∀ (l : List Nat), Nat.ofDigits BASE l = 0 ↔ ∀ d ∈ l, d = 0
  | [] => by simp
  | x :: xs => by
    rw [Nat.ofDigits_cons, List.forall_mem_cons, ← ofDigits_eq_zero_iff xs]
    constructor
    · intro h
      have h2 : BASE * Nat.ofDigits BASE xs = 0 := by omega
      rcases Nat.mul_eq_zero.1 h2 with h3 | h3
      · exact absurd h3 (by have := BASE_pos; omega)
      · exact ⟨by omega, h3⟩
    · rintro ⟨rfl, h2⟩
      rw [h2]
      simp

theorem toVal_pos {x : BigNumber} (h : ¬ ∀ d ∈ x.prec, d = 0) : 0 < toVal x := by
  rcases Nat.eq_zero_or_pos (toVal x) with h0 | h0
  · exact absurd ((ofDigits_eq_zero_iff x.prec).1 h0) h
  · exact h0

theorem toVal_rotated_pos {b : BigNumber} (h : ¬ ∀ d ∈ b.prec, d = 0) (i : Nat) :
    0 < toVal (b.rotated_right i) := by
  apply toVal_pos
  intro hall
  apply h
  intro d hd
  exact hall d ((List.rotate_perm (b.prec) (i % NUMBER_SIZE)).mem_iff.2 hd)

theorem is_zero_true_iff {x : BigNumber} : x.is_zero = true ↔ ∀ d ∈ x.prec, d = 0 := by
  rw [BigNumber.is_zero, List.all_eq_true]
  constructor
  · intro h d hd
    simpa using h d hd
  · intro h d hd
    simpa using h d hd

theorem is_zero_false_iff {x : BigNumber} : x.is_zero = false ↔ ¬ ∀ d ∈ x.prec, d = 0 := by
  rw [← is_zero_true_iff]
  cases x.is_zero <;> simp

theorem is_zero_false_of_toVal_pos {x : BigNumber} (h : 0 < toVal x) : x.is_zero = false := by
  rw [is_zero_false_iff]
  intro hall
  rw [show toVal x = 0 from (ofDigits_eq_zero_iff x.prec).2 hall] at h
  omega

theorem divLoop_skip : ∀ (L M : List Nat) (b : BigNumber) (fuel : Nat) (r q : BigNumber),
    (∀ i ∈ L, ¬ BigNumber.cmp r (b.rotated_right i) = Ordering.gt) →
    divLoop b fuel (L ++ M) r q = divLoop b fuel M r q
  | [], M, b, fuel, r, q, _ => by rw [List.nil_append]
  | i :: L, M, b, fuel, r, q, h => by
    rw [List.cons_append]
    rw [show divLoop b fuel (i :: (L ++ M)) r q
        = divLoop b fuel (L ++ M) r (setPrec q i (q.prec.getD i 0)) from by
      simp only [divLoop, whileSub_not_gt (h i (List.mem_cons_self ..))]]
    rw [show setPrec q i (q.prec.getD i 0) = q from BigNumber.ext' (set_getD_self _ _)]
    exact divLoop_skip L M b fuel r q (fun j hj => h j (List.mem_cons_of_mem _ hj))

theorem divLoop_total (b : BigNumber) (hb : Reduced b)
    (hrot : ∀ i : Nat, 0 < toVal (b.rotated_right i)) (V fuel : Nat) (hVf : V ≤ fuel) :
    ∀ (L : List Nat) (r q : BigNumber), Reduced r → toVal r ≤ V →
      (∀ d ∈ q.prec, d < U32MOD) → (divLoop b fuel L r q).isSome = true
  | [], _, _, _, _, _ => rfl
  | i :: L, r, q, hr, hrV, hq => by
    have hs : Reduced (b.rotated_right i) := Reduced_rotated hb i
    have hsp : 0 < toVal (b.rotated_right i) := hrot i
    have hqd : q.prec.getD i 0 < U32MOD :=
      getD_lt_of_forall_gen (by rw [U32MOD_eq]; omega) hq i
    have hk : (toVal r - 1) / toVal (b.rotated_right i) ≤ fuel := by
      have h1 := Nat.div_le_self (toVal r - 1) (toVal (b.rotated_right i))
      omega
    obtain ⟨r', hw, hr', hval⟩ := whileSub_spec (toVal r) r (b.rotated_right i)
      (q.prec.getD i 0) fuel le_rfl hr hs hsp hk hqd
    rw [show divLoop b fuel (i :: L) r q
        = divLoop b fuel L r' (setPrec q i
            ((q.prec.getD i 0 + (toVal r - 1) / toVal (b.rotated_right i)) % U32MOD)) from by
      simp only [divLoop, hw]]
    refine divLoop_total b hb hrot V fuel hVf L r' _ hr' (by omega) ?_
    intro d hd
    rcases List.mem_or_eq_of_mem_set hd with hd | rfl
    · exact hq d hd
    · exact Nat.mod_lt _ (by rw [U32MOD_eq]; omega)

theorem empty_reduced_U32 : ∀ d ∈ BigNumber.empty.prec, d < U32MOD := by
  intro d hd
  rw [List.eq_of_mem_replicate hd, U32MOD_eq]
  omega

theorem positions1 : (List.range NUMBER_SIZE).reverse = (List.range' 1 2549).reverse ++ [0] := by
  rw [List.range_eq_range', NUMBER_SIZE_eq,
    show List.range' 0 2550 = 0 :: List.range' 1 2549 from by
      rw [show (2550 : Nat) = 2549 + 1 from rfl, List.range'_succ],
    List.reverse_cons]

theorem positions2 : (List.range NUMBER_SIZE).reverse
    = 2549 :: ((List.range' 1 2548).reverse ++ [0]) := by
  rw [positions1,
    show List.range' 1 2549 = List.range' 1 2548 ++ [2549] from by
      rw [show (2549 : Nat) = 2548 + 1 from rfl, List.range'_concat],
    List.reverse_append]
  rw [show List.reverse [2549] = [2549] from rfl, List.singleton_append, List.cons_append]

theorem mem_range'_rev {i k : Nat} (h : i ∈ (List.range' 1 k).reverse) : 1 ≤ i ∧ i < 1 + k := by
  rw [List.mem_reverse] at h
  obtain ⟨m, hm, rfl⟩ := List.mem_range'.1 h
  omega

/-- Dividing the zero value by the zero value terminates with quotient
zero, for any fuel: the strict loop guard is false at every position. -/
theorem div_zero_zero (fuel : Nat) :
    div_assign BigNumber.empty BigNumber.empty fuel = some BigNumber.empty := by
  rw [div_assign]
  have h := divLoop_skip ((List.range NUMBER_SIZE).reverse) [] BigNumber.empty fuel
    BigNumber.empty BigNumber.empty ?_
  · rw [List.append_nil] at h
    rw [h]
    rfl
  · intro i _
    intro hgt
    rw [rotated_right_empty i, cmp_gt_iff Reduced_empty Reduced_empty] at hgt
    exact absurd hgt (lt_irrefl _)

/-- Dividing a nonzero value by the zero value exhausts any fuel: the
very first repeated-subtraction loop never exits. -/
theorem div_one_zero (fuel : Nat) :
    div_assign (BigNumber.from' 1) BigNumber.empty fuel = none := by
  have h1 : Reduced (BigNumber.from' 1) := Reduced_from' (by rw [BASE_eq]; omega)
  have hpos : 0 < toVal (BigNumber.from' 1) := by
    rw [toVal_from']
    omega
  rw [div_assign, positions2]
  rw [show divLoop BigNumber.empty fuel (2549 :: ((List.range' 1 2548).reverse ++ [0]))
        (BigNumber.from' 1) BigNumber.empty = none from by
    simp only [divLoop, rotated_right_empty, whileSub_zero_divisor h1 hpos]]
  rfl

theorem setPrec_empty_zero (v : Nat) : setPrec BigNumber.empty 0 v = BigNumber.from' v := by
  apply BigNumber.ext'
  show (List.replicate NUMBER_SIZE 0).set 0 v = v :: List.replicate (NUMBER_SIZE - 1) 0
  rw [show NUMBER_SIZE = 2549 + 1 from rfl, List.replicate_succ, List.set_cons_zero]

theorem toVal_rotated_from' (d i : Nat) (h1 : 1 ≤ i) (h2 : i < NUMBER_SIZE) :
    toVal ((BigNumber.from' d).rotated_right i) = d * BASE ^ (NUMBER_SIZE - i) := by
  obtain ⟨k, rfl⟩ : ∃ k, i = k + 1 := ⟨i - 1, by omega⟩
  have hlen : (d :: List.replicate (NUMBER_SIZE - 1) 0).length = NUMBER_SIZE :=
    (BigNumber.from' d).hlen
  show Nat.ofDigits BASE
      ((d :: List.replicate (NUMBER_SIZE - 1) 0).rotate ((k + 1) % NUMBER_SIZE)) = _
  rw [Nat.mod_eq_of_lt h2, List.rotate_eq_drop_append_take (by rw [hlen]; omega),
    List.drop_succ_cons, List.take_succ_cons, Nat.ofDigits_append]
  have hz1 : Nat.ofDigits BASE ((List.replicate (NUMBER_SIZE - 1) 0).drop k) = 0 := by
    rw [ofDigits_eq_zero_iff]
    intro x hx
    exact List.eq_of_mem_replicate (List.mem_of_mem_drop hx)
  have hz2 : Nat.ofDigits BASE ((List.replicate (NUMBER_SIZE - 1) 0).take k) = 0 := by
    rw [ofDigits_eq_zero_iff]
    intro x hx
    exact List.eq_of_mem_replicate (List.mem_of_mem_take hx)
  rw [hz1, Nat.ofDigits_cons, hz2, List.length_drop, List.length_replicate]
  rw [show NUMBER_SIZE - 1 - k = NUMBER_SIZE - (k + 1) by omega]
  ring

/-- Single-limb division: for `a0, b0 < BASE` with `b0` nonzero, the
algorithm only runs the unshifted position and the strict guard stops one
subtraction early on exact multiples: the quotient limb is
`(a0 - 1) / b0`, not `a0 / b0`. -/
theorem div_single (a0 b0 fuel : Nat) (ha : a0 < BASE) (hb0 : 0 < b0) (hb : b0 < BASE)
    (hf : a0 ≤ fuel) :
    div_assign (BigNumber.from' a0) (BigNumber.from' b0) fuel
      = some (BigNumber.from' ((a0 - 1) / b0)) := by
  have hra := Reduced_from' ha
  have hrb := Reduced_from' hb
  have hskip : ∀ i ∈ (List.range' 1 2549).reverse,
      ¬ BigNumber.cmp (BigNumber.from' a0) ((BigNumber.from' b0).rotated_right i)
        = Ordering.gt := by
    intro i hi hgt
    obtain ⟨hi1, hi2⟩ := mem_range'_rev hi
    rw [cmp_gt_iff hra (Reduced_rotated hrb i)] at hgt
    rw [toVal_rotated_from' b0 i hi1 (by rw [NUMBER_SIZE_eq]; omega), toVal_from'] at hgt
    have hp1 : BASE ^ 1 ≤ BASE ^ (NUMBER_SIZE - i) :=
      Nat.pow_le_pow_right (by have := BASE_pos; omega) (by rw [NUMBER_SIZE_eq]; omega)
    have hp2 : 1 * BASE ^ (NUMBER_SIZE - i) ≤ b0 * BASE ^ (NUMBER_SIZE - i) :=
      Nat.mul_le_mul_right _ hb0
    rw [pow_one] at hp1
    rw [Nat.one_mul] at hp2
    omega
  have hqd0 : BigNumber.empty.prec.getD 0 0 = 0 := getD_replicate_zero NUMBER_SIZE 0
  obtain ⟨r', hw, _, _⟩ := whileSub_spec a0 (BigNumber.from' a0) (BigNumber.from' b0) 0 fuel
    (by rw [toVal_from']) hra hrb (by rw [toVal_from']; omega)
    (by rw [toVal_from', toVal_from']
        have := Nat.div_le_self (a0 - 1) b0
        omega)
    (by rw [U32MOD_eq]; omega)
  rw [toVal_from', toVal_from'] at hw
  rw [show (0 + (a0 - 1) / b0) % U32MOD = (a0 - 1) / b0 from by
      rw [Nat.zero_add]
      apply Nat.mod_eq_of_lt
      have := Nat.div_le_self (a0 - 1) b0
      rw [U32MOD_eq]
      rw [BASE_eq] at ha
      omega] at hw
  rw [div_assign, positions1, divLoop_skip _ _ _ _ _ _ hskip]
  rw [show divLoop (BigNumber.from' b0) fuel [0] (BigNumber.from' a0) BigNumber.empty
      = some (setPrec BigNumber.empty 0 ((a0 - 1) / b0), r') from by
    simp only [divLoop, rotated_right_zero, hqd0, hw]]
  rw [setPrec_empty_zero]
  rfl

/-- The dividend `2 * BASE^2` of the C2 counterexample. -/
def twoBsq : BigNumber :=
  ⟨0 :: 0 :: 2 :: List.replicate (NUMBER_SIZE - 3) 0, by
    rw [List.length_cons, List.length_cons, List.length_cons, List.length_replicate]
    simp only [NUMBER_SIZE]⟩

theorem toVal_twoBsq : toVal twoBsq = 2 * BASE ^ 2 := by
  show Nat.ofDigits BASE (0 :: 0 :: 2 :: List.replicate (NUMBER_SIZE - 3) 0) = 2 * BASE ^ 2
  rw [Nat.ofDigits_cons, Nat.ofDigits_cons, Nat.ofDigits_cons, ofDigits_replicate_zero]
  ring

theorem Reduced_twoBsq : Reduced twoBsq := by
  intro d hd
  have hB := BASE_pos
  rcases List.mem_cons.1 hd with rfl | hd
  · exact hB
  rcases List.mem_cons.1 hd with rfl | hd
  · exact hB
  rcases List.mem_cons.1 hd with rfl | hd
  · rw [BASE_eq]
    omega
  · rw [List.eq_of_mem_replicate hd]
    exact hB

/-- Dividing `2 * BASE^2` by one: the first digit position (2549) uses the
rotated divisor of value `BASE` and performs `2*BASE - 1 = 131069`
subtractions, so quotient limb 2549 receives 131069 — which exceeds
`BASE`. -/
theorem div_twoBsq (fuel : Nat) (hf : 131069 ≤ fuel) :
    div_assign twoBsq (BigNumber.from' 1) fuel
      = some (setPrec (setPrec BigNumber.empty 2549 131069) 0 65534) := by
  have hra := Reduced_twoBsq
  have hrb := Reduced_from' (show (1 : Nat) < BASE by rw [BASE_eq]; omega)
  have hrotv : toVal ((BigNumber.from' 1).rotated_right 2549) = BASE := by
    rw [toVal_rotated_from' 1 2549 (by omega) (by rw [NUMBER_SIZE_eq]; omega),
      show NUMBER_SIZE - 2549 = 1 from rfl, pow_one, Nat.one_mul]
  have hK1 : (toVal twoBsq - 1) / toVal ((BigNumber.from' 1).rotated_right 2549)
      = 131069 := by
    rw [toVal_twoBsq, hrotv, BASE_eq]
    norm_num
  have hqd1 : BigNumber.empty.prec.getD 2549 0 = 0 := getD_replicate_zero NUMBER_SIZE 2549
  obtain ⟨r1, hw1, hred1, hval1⟩ := whileSub_spec (toVal twoBsq) twoBsq
    ((BigNumber.from' 1).rotated_right 2549) 0 fuel le_rfl hra (Reduced_rotated hrb 2549)
    (by rw [hrotv]; exact BASE_pos) (by rw [hK1]; omega) (by rw [U32MOD_eq]; omega)
  rw [hK1] at hw1 hval1
  rw [show (0 + 131069) % U32MOD = 131069 from by rw [U32MOD_eq]] at hw1
  have hval1' : toVal r1 = BASE := by
    rw [hval1, toVal_twoBsq, hrotv, BASE_eq]
    norm_num
  have step1 : ∀ tail : List Nat,
      divLoop (BigNumber.from' 1) fuel (2549 :: tail) twoBsq BigNumber.empty
      = divLoop (BigNumber.from' 1) fuel tail r1 (setPrec BigNumber.empty 2549 131069) := by
    intro tail
    simp only [divLoop, hqd1, hw1]
  have hskip : ∀ i ∈ (List.range' 1 2548).reverse,
      ¬ BigNumber.cmp r1 ((BigNumber.from' 1).rotated_right i) = Ordering.gt := by
    intro i hi hgt
    obtain ⟨hi1, hi2⟩ := mem_range'_rev hi
    rw [cmp_gt_iff hred1 (Reduced_rotated hrb i)] at hgt
    rw [toVal_rotated_from' 1 i hi1 (by rw [NUMBER_SIZE_eq]; omega), Nat.one_mul,
      hval1'] at hgt
    have hp1 : BASE ^ 1 ≤ BASE ^ (NUMBER_SIZE - i) :=
      Nat.pow_le_pow_right (by have := BASE_pos; omega) (by rw [NUMBER_SIZE_eq]; omega)
    rw [pow_one] at hp1
    omega
  rw [div_assign, positions2, step1, divLoop_skip _ _ _ _ _ _ hskip]
  have hqd2 : (setPrec BigNumber.empty 2549 131069).prec.getD 0 0 = 0 := by
    show ((BigNumber.empty.prec).set 2549 131069).getD 0 0 = 0
    rw [getD_set_ne _ _ _ _ (by omega)]
    exact getD_replicate_zero NUMBER_SIZE 0
  have hK2 : (toVal r1 - 1) / toVal (BigNumber.from' 1) = 65534 := by
    rw [hval1', toVal_from', BASE_eq]
  obtain ⟨r2, hw2, _, _⟩ := whileSub_spec (toVal r1) r1 (BigNumber.from' 1) 0 fuel le_rfl
    hred1 hrb (by rw [toVal_from']; omega)
    (by rw [hK2]; omega) (by rw [U32MOD_eq]; omega)
  rw [hK2] at hw2
  rw [show (0 + 65534) % U32MOD = 65534 from by rw [U32MOD_eq]] at hw2
  rw [show divLoop (BigNumber.from' 1) fuel [0] r1 (setPrec BigNumber.empty 2549 131069)
      = some (setPrec (setPrec BigNumber.empty 2549 131069) 0 65534, r2) from by
    simp only [divLoop, rotated_right_zero, hqd2, hw2]]
  rfl

/-- C1 (counterexample): the claim "a / b returns the unique q with
q*b ≤ a < (q+1)*b" fails at a = 2, b = 1 (reduced single-limb values):
the code returns quotient 1, and 1 does not satisfy 2 < (1+1)*1, because
the strict loop guard `remainder > shifted_divisor` stops one subtraction
short whenever the divisor divides the remainder exactly. -/
theorem C1_floor_division_counterexample :
    div_assign (BigNumber.from' 2) (BigNumber.from' 1) 2 = some (BigNumber.from' 1) ∧
    toVal (BigNumber.from' 1) = 1 ∧ toVal (BigNumber.from' 2) = 2 ∧
    ¬ (1 * 1 ≤ 2 ∧ 2 < (1 + 1) * 1) := by
  refine ⟨?_, toVal_from' 1, toVal_from' 2, by omega⟩
  exact div_single 2 1 2 (by rw [BASE_eq]; omega) (by omega) (by rw [BASE_eq]; omega)
    (by omega)

/-- C1 (amended): for single-limb reduced operands `a0, b0 < BASE` with
`b0` nonzero (and enough fuel), division terminates and returns the
single-limb quotient `(a0 - 1) / b0` — the floor quotient when `b0` does
not divide `a0` (or `a0 = 0`), and one less than the floor quotient when
it does. -/
theorem C1_single_limb_quotient (a0 b0 fuel : Nat) (ha : a0 < BASE) (hb0 : 0 < b0)
    (hb : b0 < BASE) (hf : a0 ≤ fuel) :
    div_assign (BigNumber.from' a0) (BigNumber.from' b0) fuel
      = some (BigNumber.from' ((a0 - 1) / b0)) :=
  div_single a0 b0 fuel ha hb0 hb hf

/-- C1 witness: 100 / 7 at fuel 100 returns `from' 14` (here 7 does not
divide 100, so this is the true floor quotient). -/
theorem C1_single_limb_quotient_witness :
    100 < BASE ∧ 0 < 7 ∧ 7 < BASE ∧ 100 ≤ 100 ∧
    div_assign (BigNumber.from' 100) (BigNumber.from' 7) 100
      = some (BigNumber.from' ((100 - 1) / 7)) :=
  ⟨by rw [BASE_eq]; omega, by omega, by rw [BASE_eq]; omega, le_rfl,
    C1_single_limb_quotient 100 7 100 (by rw [BASE_eq]; omega) (by omega)
      (by rw [BASE_eq]; omega) le_rfl⟩

/-- C2 (counterexample): the claim "after divide every limb lies in
[0, BASE)" fails: dividing the reduced value `2 * BASE^2` by the reduced
value 1, the division terminates and quotient limb 2549 holds
131069 ≥ BASE. -/
theorem C2_div_limb_overflow_counterexample :
    Reduced twoBsq ∧ Reduced (BigNumber.from' 1) ∧
    div_assign twoBsq (BigNumber.from' 1) 131069
      = some (setPrec (setPrec BigNumber.empty 2549 131069) 0 65534) ∧
    (setPrec (setPrec BigNumber.empty 2549 131069) 0 65534).prec.getD 2549 0 = 131069 ∧
    ¬ 131069 < BASE := by
  refine ⟨Reduced_twoBsq, Reduced_from' (by rw [BASE_eq]; omega), div_twoBsq 131069 le_rfl,
    ?_, by rw [BASE_eq]; omega⟩
  show (((BigNumber.empty.prec).set 2549 131069).set 0 65534).getD 2549 0 = 131069
  rw [getD_set_ne _ _ _ _ (by omega),
    getD_set_eq _ _ _ (by
      rw [BigNumber.empty.hlen, NUMBER_SIZE_eq]
      omega)]

/-- C2 (amended): after add, subtract or multiply on operands whose limbs
all lie in [0, BASE), every limb of the result lies in [0, BASE); the
divide operation does not preserve this invariant. -/
theorem C2_add_sub_mul_preserve_reduced (a b : BigNumber) (ha : Reduced a)
    (hb : Reduced b) :
    Reduced (add_assign a b) ∧ Reduced (sub_assign a b) ∧ Reduced (mul_assign a b) := by
  refine ⟨(add_spec ha hb).1, ?_, (mul_spec ha hb).1⟩
  by_cases hgt : BigNumber.cmp b a = Ordering.gt
  · rw [sub_spec_gt hgt]
    exact Reduced_empty
  · have hle : toVal b ≤ toVal a := by
      have h1 : ¬ toVal a < toVal b := fun hh => hgt ((cmp_gt_iff hb ha).2 hh)
      omega
    exact (sub_spec_le ha hb hle).1

/-- C2 witness at `from' 5`, `from' 3`. -/
theorem C2_add_sub_mul_preserve_reduced_witness :
    Reduced (BigNumber.from' 5) ∧ Reduced (BigNumber.from' 3) ∧
    (Reduced (add_assign (BigNumber.from' 5) (BigNumber.from' 3)) ∧
      Reduced (sub_assign (BigNumber.from' 5) (BigNumber.from' 3)) ∧
      Reduced (mul_assign (BigNumber.from' 5) (BigNumber.from' 3))) :=
  ⟨Reduced_from' (by rw [BASE_eq]; omega), Reduced_from' (by rw [BASE_eq]; omega),
    C2_add_sub_mul_preserve_reduced (BigNumber.from' 5) (BigNumber.from' 3)
      (Reduced_from' (by rw [BASE_eq]; omega)) (Reduced_from' (by rw [BASE_eq]; omega))⟩

/-- C3 (counterexample): the claim fixes BASE = 65536, but the code's
`BASE = u16::MAX as u32 = 65535`: `from_upper 65535` stores limb 0 =
65535 mod 65535 = 0, not 65535 mod 65536 = 65535. -/
theorem C3_from_upper_base_counterexample :
    (BigNumber.from_upper 65535).prec.getD 0 0 = 0 ∧ 65535 % 65536 = 65535 ∧
    ¬ (BigNumber.from_upper 65535).prec.getD 0 0 = 65535 % 65536 := by
  have h : (BigNumber.from_upper 65535).prec.getD 0 0 = 0 := by
    show (65535 % BASE :: 65535 / BASE :: List.replicate (NUMBER_SIZE - 2) 0).getD 0 0 = 0
    rw [List.getD_cons_zero, BASE_eq]
  exact ⟨h, by norm_num, by rw [h]; norm_num⟩

/-- C3 (amended): for every wide scalar `v` (a `u32`), `from_upper v` has
limb 0 = `v mod 65535`, limb 1 = `v div 65535` (the code's BASE is 65535,
not 65536), and every remaining limb 0. -/
theorem C3_from_upper_spec (v : Nat) (hv : v < 4294967296) :
    (BigNumber.from_upper v).prec.getD 0 0 = v % 65535 ∧
    (BigNumber.from_upper v).prec.getD 1 0 = v / 65535 ∧
    (∀ i, 2 ≤ i → (BigNumber.from_upper v).prec.getD i 0 = 0) := by
  refine ⟨?_, ?_, ?_⟩
  · show (v % BASE :: v / BASE :: List.replicate (NUMBER_SIZE - 2) 0).getD 0 0 = v % 65535
    rw [List.getD_cons_zero, BASE_eq]
  · show (v % BASE :: v / BASE :: List.replicate (NUMBER_SIZE - 2) 0).getD 1 0 = v / 65535
    rw [show (1 : Nat) = 0 + 1 from rfl, List.getD_cons_succ, List.getD_cons_zero, BASE_eq]
  · intro i hi
    obtain ⟨k, rfl⟩ : ∃ k, i = k + 2 := ⟨i - 2, by omega⟩
    show (v % BASE :: v / BASE :: List.replicate (NUMBER_SIZE - 2) 0).getD (k + 2) 0 = 0
    rw [show k + 2 = (k + 1) + 1 from rfl, List.getD_cons_succ, List.getD_cons_succ]
    exact getD_replicate_zero _ k

/-- C3 witness at v = 100000. -/
theorem C3_from_upper_spec_witness :
    100000 < 4294967296 ∧
    ((BigNumber.from_upper 100000).prec.getD 0 0 = 100000 % 65535 ∧
      (BigNumber.from_upper 100000).prec.getD 1 0 = 100000 / 65535 ∧
      (∀ i, 2 ≤ i → (BigNumber.from_upper 100000).prec.getD i 0 = 0)) :=
  ⟨by omega, C3_from_upper_spec 100000 (by omega)⟩

/-- C4 (code bug): division does not detect a zero divisor. Dividing the
value 1 by the zero value exhausts every fuel bound — the source's
`while remainder > shifted_divisor` loop subtracts zero forever — instead
of failing with a DivisionByZero condition as the spec requires. -/
theorem C4_div_by_zero_diverges (fuel : Nat) :
    div_assign (BigNumber.from' 1) BigNumber.empty fuel = none :=
  div_one_zero fuel

/-- C5: multiplication is fixed-width modular: for reduced operands the
represented value of `a * b` is `(toVal a * toVal b) mod BASE^NUMBER_SIZE`;
the dropped partial products and carries account exactly for the discarded
multiples of `BASE^NUMBER_SIZE`. -/
theorem C5_mul_modular (a b : BigNumber) (ha : Reduced a) (hb : Reduced b) :
    toVal (mul_assign a b) = (toVal a * toVal b) % BASE ^ NUMBER_SIZE :=
  (mul_spec ha hb).2

/-- C5 witness at `from' 2`, `from' 3`. -/
theorem C5_mul_modular_witness :
    Reduced (BigNumber.from' 2) ∧ Reduced (BigNumber.from' 3) ∧
    toVal (mul_assign (BigNumber.from' 2) (BigNumber.from' 3))
      = (toVal (BigNumber.from' 2) * toVal (BigNumber.from' 3)) % BASE ^ NUMBER_SIZE :=
  ⟨Reduced_from' (by rw [BASE_eq]; omega), Reduced_from' (by rw [BASE_eq]; omega),
    C5_mul_modular (BigNumber.from' 2) (BigNumber.from' 3)
      (Reduced_from' (by rw [BASE_eq]; omega)) (Reduced_from' (by rw [BASE_eq]; omega))⟩

/-- C6: for reduced operands, if `b ≤ a` by the limb ordering then
`(a - b) + b = a`, and if `b > a` then `a - b` is the zero value. -/
theorem C6_sub_add_inverse_saturating (a b : BigNumber) (ha : Reduced a)
    (hb : Reduced b) :
    (¬ BigNumber.cmp b a = Ordering.gt → add_assign (sub_assign a b) b = a) ∧
    (BigNumber.cmp b a = Ordering.gt → sub_assign a b = BigNumber.empty) := by
  constructor
  · intro hng
    have hle : toVal b ≤ toVal a := by
      have h1 : ¬ toVal a < toVal b := fun hh => hng ((cmp_gt_iff hb ha).2 hh)
      omega
    obtain ⟨hrs, hvs⟩ := sub_spec_le ha hb hle
    obtain ⟨hradd, hvadd⟩ := add_spec hrs hb
    apply toVal_inj hradd ha
    rw [hvadd, hvs, Nat.sub_add_cancel hle]
    exact Nat.mod_eq_of_lt (toVal_lt ha)
  · exact sub_spec_gt

/-- C6 witness at `from' 5`, `from' 3`. -/
theorem C6_sub_add_inverse_saturating_witness :
    Reduced (BigNumber.from' 5) ∧ Reduced (BigNumber.from' 3) ∧
    ¬ BigNumber.cmp (BigNumber.from' 3) (BigNumber.from' 5) = Ordering.gt ∧
    add_assign (sub_assign (BigNumber.from' 5) (BigNumber.from' 3)) (BigNumber.from' 3)
      = BigNumber.from' 5 := by
  have h5 : Reduced (BigNumber.from' 5) := Reduced_from' (by rw [BASE_eq]; omega)
  have h3 : Reduced (BigNumber.from' 3) := Reduced_from' (by rw [BASE_eq]; omega)
  have hng : ¬ BigNumber.cmp (BigNumber.from' 3) (BigNumber.from' 5) = Ordering.gt := by
    rw [cmp_gt_iff h3 h5, toVal_from', toVal_from']
    omega
  exact ⟨h5, h3, hng,
    (C6_sub_add_inverse_saturating (BigNumber.from' 5) (BigNumber.from' 3) h5 h3).1 hng⟩

/-- C7: for reduced operands, every intermediate accumulator value
`w[i+j] + self[i]*rhs[j] + c` of the multiplication fits in the `u32`
accumulator (is at most 2^32 - 1), so the accumulator never wraps. -/
theorem C7_mul_accumulator_fits (a b : BigNumber) (ha : Reduced a) (hb : Reduced b) :
    ∀ v ∈ mulAccs a b, v < U32MOD :=
  mulAccs_bound ha hb

/-- C7 witness at `from' 2`, `from' 3`. -/
theorem C7_mul_accumulator_fits_witness :
    Reduced (BigNumber.from' 2) ∧ Reduced (BigNumber.from' 3) ∧
    ∀ v ∈ mulAccs (BigNumber.from' 2) (BigNumber.from' 3), v < U32MOD :=
  ⟨Reduced_from' (by rw [BASE_eq]; omega), Reduced_from' (by rw [BASE_eq]; omega),
    C7_mul_accumulator_fits (BigNumber.from' 2) (BigNumber.from' 3)
      (Reduced_from' (by rw [BASE_eq]; omega)) (Reduced_from' (by rw [BASE_eq]; omega))⟩

/-- C8: the comparison is total (its result is exactly one of lt, eq, gt)
and, for reduced operands, agrees with comparing represented magnitudes:
lt iff `toVal a < toVal b`, eq iff `a = b` (equivalently equal magnitudes,
by injectivity of the reduced representation), gt iff `toVal b < toVal a`.
Mutual exclusivity follows from these equivalences and the trichotomy of
the natural-number order. -/
theorem C8_cmp_total_order (a b : BigNumber) (ha : Reduced a) (hb : Reduced b) :
    (BigNumber.cmp a b = Ordering.lt ∨ BigNumber.cmp a b = Ordering.eq ∨
      BigNumber.cmp a b = Ordering.gt) ∧
    (BigNumber.cmp a b = Ordering.lt ↔ toVal a < toVal b) ∧
    (BigNumber.cmp a b = Ordering.eq ↔ a = b) ∧
    (BigNumber.cmp a b = Ordering.gt ↔ toVal b < toVal a) := by
  refine ⟨?_, cmp_lt_iff ha hb, ?_, cmp_gt_iff ha hb⟩
  · cases h : BigNumber.cmp a b
    · exact Or.inl rfl
    · exact Or.inr (Or.inl rfl)
    · exact Or.inr (Or.inr rfl)
  · rw [cmp_eq_iff_val ha hb]
    exact ⟨fun h => toVal_inj ha hb h, fun h => by rw [h]⟩

/-- C8 witness at `from' 2`, `from' 3`. -/
theorem C8_cmp_total_order_witness :
    Reduced (BigNumber.from' 2) ∧ Reduced (BigNumber.from' 3) ∧
    ((BigNumber.cmp (BigNumber.from' 2) (BigNumber.from' 3) = Ordering.lt ∨
        BigNumber.cmp (BigNumber.from' 2) (BigNumber.from' 3) = Ordering.eq ∨
        BigNumber.cmp (BigNumber.from' 2) (BigNumber.from' 3) = Ordering.gt) ∧
      (BigNumber.cmp (BigNumber.from' 2) (BigNumber.from' 3) = Ordering.lt
        ↔ toVal (BigNumber.from' 2) < toVal (BigNumber.from' 3)) ∧
      (BigNumber.cmp (BigNumber.from' 2) (BigNumber.from' 3) = Ordering.eq
        ↔ BigNumber.from' 2 = BigNumber.from' 3) ∧
      (BigNumber.cmp (BigNumber.from' 2) (BigNumber.from' 3) = Ordering.gt
        ↔ toVal (BigNumber.from' 3) < toVal (BigNumber.from' 2))) :=
  ⟨Reduced_from' (by rw [BASE_eq]; omega), Reduced_from' (by rw [BASE_eq]; omega),
    C8_cmp_total_order (BigNumber.from' 2) (BigNumber.from' 3)
      (Reduced_from' (by rw [BASE_eq]; omega)) (Reduced_from' (by rw [BASE_eq]; omega))⟩

/-- C9: dividing the zero value by the zero value terminates with
quotient zero for every fuel bound: the strict loop guard
`remainder > shifted_divisor` is false when both sides are zero, so every
position performs zero subtractions. -/
theorem C9_zero_div_zero_terminates (fuel : Nat) :
    div_assign BigNumber.empty BigNumber.empty fuel = some BigNumber.empty :=
  div_zero_zero fuel

/-- C10: for a reduced dividend and a reduced nonzero divisor, every
rotated divisor is nonzero and the repeated-subtraction division
terminates: with fuel `toVal a + 1` every inner loop finishes, since each
subtraction strictly decreases the remainder by the positive value of the
rotated divisor. -/
theorem C10_div_terminates (a b : BigNumber) (ha : Reduced a) (hb : Reduced b)
    (hnz : b.is_zero = false) :
    (∀ i : Nat, (b.rotated_right i).is_zero = false) ∧
    (div_assign a b (toVal a + 1)).isSome = true := by
  have hnall : ¬ ∀ d ∈ b.prec, d = 0 := is_zero_false_iff.1 hnz
  have hrot : ∀ i : Nat, 0 < toVal (b.rotated_right i) := toVal_rotated_pos hnall
  refine ⟨fun i => is_zero_false_of_toVal_pos (hrot i), ?_⟩
  have h := divLoop_total b hb hrot (toVal a) (toVal a + 1) (by omega)
    ((List.range NUMBER_SIZE).reverse) a BigNumber.empty ha le_rfl empty_reduced_U32
  rw [div_assign]
  obtain ⟨p, hp⟩ := Option.isSome_iff_exists.1 h
  rw [hp]
  rfl

/-- C10 witness at `from' 5`, `from' 3`. -/
theorem C10_div_terminates_witness :
    Reduced (BigNumber.from' 5) ∧ Reduced (BigNumber.from' 3) ∧
    (BigNumber.from' 3).is_zero = false ∧
    ((∀ i : Nat, ((BigNumber.from' 3).rotated_right i).is_zero = false) ∧
      (div_assign (BigNumber.from' 5) (BigNumber.from' 3)
        (toVal (BigNumber.from' 5) + 1)).isSome = true) := by
  have h5 : Reduced (BigNumber.from' 5) := Reduced_from' (by rw [BASE_eq]; omega)
  have h3 : Reduced (BigNumber.from' 3) := Reduced_from' (by rw [BASE_eq]; omega)
  have hnz : (BigNumber.from' 3).is_zero = false :=
    is_zero_false_of_toVal_pos (by rw [toVal_from']; omega)
  exact ⟨h5, h3, hnz, C10_div_terminates (BigNumber.from' 5) (BigNumber.from' 3) h5 h3 hnz⟩

end BigNum
